import Mathlib

/-!
Verification of the terminfo binary decoder and database lookup
(`terminfo.go`).  The decoder and its helpers are embedded shallowly:
bytes are `Nat` (values 0..255), byte strings are `List Nat`, Go maps
are association lists with last-write-wins insertion, fallible code
returns `Except Err`, and a Go runtime panic is an explicit `panic`
outcome.  Helper functions whose source is not part of the repository
snapshot (the byte cursor, header validators, `makemap`, the cache) are
modelled from the specification, as their doc comments state.
-/

namespace Tinfo

/-- A byte string (Go `string` / `[]byte`): a list of byte values. -/
abbrev ByteStr := List Nat

/-- The named error kinds of the package (`ErrInvalidFileSize`, ...). -/
inductive Err where
  | InvalidFileSize
  | UnexpectedFileEnd
  | InvalidStringTable
  | InvalidMagic
  | InvalidHeader
  | InvalidExtendedHeader
  | EmptyTermName
  | DatabaseDirectoryNotFound
  | FileNotFound
deriving Repr, DecidableEq

/-- The decoder state: the fixed byte buffer and the read position
(the Go `decoder` struct; its `len` field always equals `buf.length`). -/
structure Dec where
  buf : List Nat
  pos : Nat
deriving Repr, DecidableEq

/-- The `Terminfo` structure describes a terminal's capabilities.  The Go
`map[int]bool` "missing" sets are modelled as lists of the missing
indices; the Go `map[string]int` name maps as association lists. -/
structure Terminfo where
  File : ByteStr := []
  Names : List ByteStr := []
  Bools : List Bool := []
  BoolsM : List Nat := []
  Nums : List Int := []
  NumsM : List Nat := []
  Strings : List ByteStr := []
  StringsM : List Nat := []
  ExtBools : List Bool := []
  ExtNums : List Int := []
  ExtStrings : List ByteStr := []
  ExtBoolsNames : List (ByteStr × Nat) := []
  ExtNumsNames : List (ByteStr × Nat) := []
  ExtStringsNames : List (ByteStr × Nat) := []
deriving Repr, DecidableEq

/-- Modelled from the spec: the magic constant of the legacy compiled
format (the constant `magic`, not in the snapshot).  Scenario A fixes
its little-endian bytes as `[0x1A, 0x01]`, so the value is `0x011A`. -/
def magicNum : Int := 282

/-- Index of the name-blob length in the legacy header (`fieldNameSize`). -/
def fieldNameSize : Nat := 0

/-- Index of the boolean-capability count in the legacy header. -/
def fieldBoolCount : Nat := 1

/-- Index of the numeric-capability count in the legacy header. -/
def fieldNumCount : Nat := 2

/-- Index of the string-capability count in the legacy header. -/
def fieldStringCount : Nat := 3

/-- Index of the string-table byte size in the legacy header. -/
def fieldTableSize : Nat := 4

/-- Index of the extended-bool count in the extended header. -/
def fieldExtBoolCount : Nat := 0

/-- Index of the extended-num count in the extended header. -/
def fieldExtNumCount : Nat := 1

/-- Index of the extended-string count in the extended header. -/
def fieldExtStringCount : Nat := 2

/-- Index of the extended string-table entry count in the extended header. -/
def fieldExtOffsetCount : Nat := 3

/-- Index of the extended string-table byte size in the extended header. -/
def fieldExtTableSize : Nat := 4

/-- Modelled from the spec: the known maximum boolean capability count
(the constant `capCountBool`, not in the snapshot); the canonical
capability ordering has 44 booleans. -/
def capCountBool : Int := 44

/-- Modelled from the spec: the known maximum numeric capability count
(`capCountNum`); the canonical ordering has 39 numbers. -/
def capCountNum : Int := 39

/-- Modelled from the spec: the known maximum string capability count
(`capCountString`); the canonical ordering has 414 strings. -/
def capCountString : Int := 414

/-- Modelled from the spec: `readInt16` of the byte cursor — the next
two bytes as a little-endian signed 16-bit integer; fails with the
unexpected-end error when fewer than two bytes remain. -/
def readInt16 (d : Dec) : Except Err (Int × Dec) :=
  if d.buf.length < d.pos + 2 then .error .UnexpectedFileEnd
  else
    let v : Nat := (d.buf.getD d.pos 0 + 256 * d.buf.getD (d.pos + 1) 0) % 65536
    .ok (if v < 32768 then (v : Int) else (v : Int) - 65536,
         { d with pos := d.pos + 2 })

/-- Modelled from the spec: the loop of `readNums` — reads `n` 16-bit
integers starting the missing-index numbering at `i`; an integer equal
to the absent sentinel (−1) is recorded in the missing set. -/
def readNumsAux : Nat → Nat → Dec → Except Err (List Int × List Nat × Dec)
  | 0, _, d => .ok ([], [], d)
  | n + 1, i, d =>
    match readInt16 d with
    | .error e => .error e
    | .ok (v, d1) =>
      match readNumsAux n (i + 1) d1 with
      | .error e => .error e
      | .ok (vs, ms, d2) => .ok (v :: vs, (if v = -1 then i :: ms else ms), d2)

/-- Modelled from the spec: `readNums(count, capacity)` of the byte
cursor — reads `count` 16-bit integers plus the set of indices holding
the absent sentinel; `capacity` only records what the caller expects
and does not limit the read. -/
def readNums (n : Int) (capacity : Int) (d : Dec) :
    Except Err (List Int × List Nat × Dec) :=
  let _ := capacity
  readNumsAux n.toNat 0 d

/-- Modelled from the spec: `readBytes(n)` of the byte cursor — the
next `n` raw bytes; fails with the unexpected-end error when fewer
than `n` bytes remain. -/
def readBytes (n : Int) (d : Dec) : Except Err (List Nat × Dec) :=
  if (d.buf.length : Int) - (d.pos : Int) < n then .error .UnexpectedFileEnd
  else .ok ((d.buf.drop d.pos).take n.toNat, { d with pos := d.pos + n.toNat })

/-- Modelled from the spec: `readBools(count, capacity)` — reads
`count` single bytes as booleans; a byte equal to the absent sentinel
(−1 as a byte, 0xFF) is recorded in the returned missing index set
instead of being treated as an explicit value. -/
def readBools (n : Int) (capacity : Int) (d : Dec) :
    Except Err (List Bool × List Nat × Dec) :=
  let _ := capacity
  match readBytes n d with
  | .error e => .error e
  | .ok (bs, d1) =>
    .ok (bs.map (fun b => b == 1),
         (List.range bs.length).filter (fun i => bs.getD i 0 == 255), d1)

/-- Modelled from the spec: resolution of one string-table offset — the
NUL-terminated string starting at the offset, `none` when no terminator
exists within the blob (or the offset is negative). -/
def resolveStr (table : List Nat) (off : Int) : Option ByteStr :=
  if off < 0 then none
  else
    let rest := table.drop off.toNat
    if rest.contains 0 then some (rest.takeWhile (fun b => !(b == 0))) else none

/-- Modelled from the spec: resolution of every offset of a string
table, numbering missing indices from `i` — a sentinel (−1) offset
yields the empty string and a missing index; an unresolvable offset
fails with the invalid-string-table error. -/
def resolveAll (table : List Nat) : List Int → Nat → Except Err (List ByteStr × List Nat)
  | [], _ => .ok ([], [])
  | off :: rest, i =>
    if off = -1 then
      match resolveAll table rest (i + 1) with
      | .error e => .error e
      | .ok (ss, ms) => .ok ([] :: ss, i :: ms)
    else
      match resolveStr table off with
      | none => .error .InvalidStringTable
      | some s =>
        match resolveAll table rest (i + 1) with
        | .error e => .error e
        | .ok (ss, ms) => .ok (s :: ss, ms)

/-- Modelled from the spec: `readStrings(count, tableSize, capacity)` —
reads `count` 16-bit string-table offsets, then the raw string-table
blob of `tableSize` bytes, then resolves each offset. -/
def readStrings (n tableSize capacity : Int) (d : Dec) :
    Except Err (List ByteStr × List Nat × Dec) :=
  let _ := capacity
  match readNums n n d with
  | .error e => .error e
  | .ok (offs, _, d1) =>
    match readBytes tableSize d1 with
    | .error e => .error e
    | .ok (table, d2) =>
      match resolveAll table offs 0 with
      | .error e => .error e
      | .ok (ss, ms) => .ok (ss, ms, d2)

/-- Modelled from the spec: `hasInvalidCaps` — a legacy header is
invalid when a field is negative or a capability count exceeds the
known maximum capability counts. -/
def hasInvalidCaps (h : List Int) : Bool :=
  decide (h.getD fieldNameSize 0 < 0) ||
  decide (h.getD fieldBoolCount 0 < 0) ||
  decide (h.getD fieldNumCount 0 < 0) ||
  decide (h.getD fieldStringCount 0 < 0) ||
  decide (h.getD fieldTableSize 0 < 0) ||
  decide (capCountBool < h.getD fieldBoolCount 0) ||
  decide (capCountNum < h.getD fieldNumCount 0) ||
  decide (capCountString < h.getD fieldStringCount 0)

/-- Modelled from the spec: `capLength` — the total legacy capability
region length computed from the five header fields (name blob, one
byte per boolean, two bytes per number, two bytes per string offset,
and the string-table blob). -/
def capLength (h : List Int) : Int :=
  h.getD fieldNameSize 0 + h.getD fieldBoolCount 0 +
  2 * h.getD fieldNumCount 0 + 2 * h.getD fieldStringCount 0 +
  h.getD fieldTableSize 0

/-- Modelled from the spec: `hasInvalidExtOffset` — an extended header
is invalid when a field is negative or the declared entry count of the
combined extended string table differs from
`extBoolCount + extNumCount + 2*extStringCount`. -/
def hasInvalidExtOffset (eh : List Int) : Bool :=
  decide (eh.getD fieldExtBoolCount 0 < 0) ||
  decide (eh.getD fieldExtNumCount 0 < 0) ||
  decide (eh.getD fieldExtStringCount 0 < 0) ||
  decide (eh.getD fieldExtOffsetCount 0 < 0) ||
  decide (eh.getD fieldExtTableSize 0 < 0) ||
  decide (eh.getD fieldExtBoolCount 0 + eh.getD fieldExtNumCount 0 +
          2 * eh.getD fieldExtStringCount 0 ≠ eh.getD fieldExtOffsetCount 0)

/-- Modelled from the spec: `extCapLength` — the total extended region
length after its header: one byte per extended boolean, two per
extended number, two per string-table offset, plus the extended
string-table blob. -/
def extCapLength (eh : List Int) : Int :=
  eh.getD fieldExtBoolCount 0 + 2 * eh.getD fieldExtNumCount 0 +
  2 * eh.getD fieldExtOffsetCount 0 + eh.getD fieldExtTableSize 0

/-- Right-trim of trailing NUL bytes (`strings.TrimRight(s, "\x00")`). -/
def trimNulRight (s : List Nat) : List Nat :=
  (s.reverse.dropWhile (fun b => b == 0)).reverse

/-- Split of a byte string on the `|` byte (`strings.Split(s, "|")`):
the empty string yields one empty field. -/
def splitBar (s : List Nat) : List ByteStr :=
  s.foldr
    (fun b acc =>
      match acc with
      | [] => [[b]]
      | cur :: rest => if b == 124 then [] :: cur :: rest else (b :: cur) :: rest)
    [[]]

/-- Modelled from the spec: one insertion into a Go map — replaces the
value of an existing key, otherwise appends the new key. -/
def makemapIns (m : List (ByteStr × Nat)) (k : ByteStr) (v : Nat) :
    List (ByteStr × Nat) :=
  if m.any (fun p => p.1 == k) then m.map (fun p => if p.1 == k then (p.1, v) else p)
  else m ++ [(k, v)]

/-- Modelled from the spec: the loop of `makemap`, inserting each name
with its position, numbering from `i`. -/
def makemapGo : List ByteStr → Nat → List (ByteStr × Nat) → List (ByteStr × Nat)
  | [], _, m => m
  | x :: xs, i, m => makemapGo xs (i + 1) (makemapIns m x i)

/-- Modelled from the spec: `makemap` — the map from each capability
name of a slice to its position in that slice (keys unique; a repeated
name keeps its last position). -/
def makemap (s : List ByteStr) : List (ByteStr × Nat) :=
  makemapGo s 0 []

/-- The legacy part of `Decode` (terminfo.go lines 99–156): magic
check, header, header validation, remaining-length check, names,
booleans, numbers and strings; yields the partially populated
`Terminfo` and the cursor state after the legacy region. -/
def decodeLegacy (buf : List Nat) : Except Err (Terminfo × Dec) :=
  match readInt16 { buf := buf, pos := 0 } with
  | .error e => .error e
  | .ok (m, d1) =>
    if m ≠ magicNum then .error .InvalidMagic
    else
      match readNums 5 5 d1 with
      | .error e => .error e
      | .ok (h, _, d2) =>
        if hasInvalidCaps h then .error .InvalidHeader
        else if (d2.buf.length : Int) - (d2.pos : Int) < capLength h then
          .error .UnexpectedFileEnd
        else
          match readBytes (h.getD fieldNameSize 0) d2 with
          | .error e => .error e
          | .ok (names, d3) =>
            match readBools (h.getD fieldBoolCount 0) capCountBool d3 with
            | .error e => .error e
            | .ok (bools, boolsM, d4) =>
              match readNums (h.getD fieldNumCount 0) capCountNum d4 with
              | .error e => .error e
              | .ok (nums, numsM, d5) =>
                match readStrings (h.getD fieldStringCount 0)
                    (h.getD fieldTableSize 0) capCountString d5 with
                | .error e => .error e
                | .ok (strs, strsM, d6) =>
                  .ok ({ Names := splitBar (trimNulRight names),
                         Bools := bools, BoolsM := boolsM,
                         Nums := nums, NumsM := numsM,
                         Strings := strs, StringsM := strsM }, d6)

/-- The extended part of `Decode` (terminfo.go lines 163–206):
extended header, its validation, the exact-remaining-length check,
extended booleans and numbers (their missing sets discarded), the
combined extended string table, and the positional partition into
extended string values and the three name maps. -/
def decodeExt (ti : Terminfo) (d : Dec) : Except Err Terminfo :=
  match readNums 5 5 d with
  | .error e => .error e
  | .ok (eh, _, d1) =>
    if hasInvalidExtOffset eh then .error .InvalidExtendedHeader
    else if (d1.buf.length : Int) - (d1.pos : Int) ≠ extCapLength eh then
      .error .InvalidExtendedHeader
    else
      match readBools (eh.getD fieldExtBoolCount 0) (eh.getD fieldExtBoolCount 0) d1 with
      | .error e => .error e
      | .ok (extBools, _, d2) =>
        match readNums (eh.getD fieldExtNumCount 0) (eh.getD fieldExtNumCount 0) d2 with
        | .error e => .error e
        | .ok (extNums, _, d3) =>
          match readStrings
              (eh.getD fieldExtBoolCount 0 + eh.getD fieldExtNumCount 0 +
               2 * eh.getD fieldExtStringCount 0)
              (eh.getD fieldExtTableSize 0)
              (eh.getD fieldExtBoolCount 0 + eh.getD fieldExtNumCount 0 +
               2 * eh.getD fieldExtStringCount 0) d3 with
          | .error e => .error e
          | .ok (s, _, _) =>
            let sc := (eh.getD fieldExtStringCount 0).toNat
            let bc := (eh.getD fieldExtBoolCount 0).toNat
            let nc := (eh.getD fieldExtNumCount 0).toNat
            let s1 := s.drop sc
            let s2 := s1.drop bc
            let s3 := s2.drop nc
            .ok { ti with
                  ExtBools := extBools,
                  ExtNums := extNums,
                  ExtStrings := s.take sc,
                  ExtBoolsNames := makemap (s1.take bc),
                  ExtNumsNames := makemap (s2.take nc),
                  ExtStringsNames := makemap (s3.take sc) }

/-- The function `Decode` (terminfo.go lines 87–207): size ceiling, the legacy
region, the early success exit when the buffer is exhausted, and
otherwise the extended region. -/
def Decode (buf : List Nat) : Except Err Terminfo :=
  if buf.length ≥ 4096 then .error .InvalidFileSize
  else
    match decodeLegacy buf with
    | .error e => .error e
    | .ok (ti, d) =>
      if d.buf.length ≤ d.pos then .ok ti
      else decodeExt ti d

/-- The outcome of a lookup: a decoded table, a named error, or a Go
runtime panic (an out-of-range slice or index). -/
inductive OpenRes where
  | ok : Terminfo → OpenRes
  | err : Err → OpenRes
  | panicked : OpenRes
deriving Repr, DecidableEq

/-- The process-wide terminfo cache (`termCache.db`), a Go map from
name to table, modelled as an association list. -/
abbrev Cache := List (ByteStr × Terminfo)

/-- Modelled from the spec: one insertion into the cache map —
replaces the value of an existing key, otherwise appends (last write
wins for a shared alias). -/
def cacheIns (c : Cache) (k : ByteStr) (v : Terminfo) : Cache :=
  if c.any (fun p => p.1 == k) then c.map (fun p => if p.1 == k then (p.1, v) else p)
  else c ++ [(k, v)]

/-- Modelled from the spec: `strconv.FormatUint(b, 16)` for one byte —
a lowercase hexadecimal digit byte. -/
def hexDigit (n : Nat) : Nat := if n < 10 then 48 + n else 87 + n

/-- Modelled from the spec: the hexadecimal rendering of one byte with
no leading zero (`strconv.FormatUint(uint64(name[0]), 16)`). -/
def hexByte (b : Nat) : ByteStr :=
  if b % 256 < 16 then [hexDigit (b % 256)]
  else [hexDigit (b % 256 / 16), hexDigit (b % 256 % 16)]

/-- Modelled from the spec: `path.Join(dir, mid, name)` for the two
literal candidate paths — the components joined by `/` bytes. -/
def pathJoin3 (dir mid name : ByteStr) : ByteStr :=
  dir ++ [47] ++ mid ++ [47] ++ name

/-- The tail of `Open` once a candidate file was read (terminfo.go
lines 229–244): decode the bytes, set `File` to the path that
succeeded, and insert the table into the cache under every alias name;
a failed decode leaves the cache unchanged. -/
def openDecode (buf : List Nat) (filename : ByteStr) (cache : Cache) :
    OpenRes × Cache :=
  match Decode buf with
  | .error e => (.err e, cache)
  | .ok ti0 =>
    let ti := { ti0 with File := filename }
    (.ok ti, ti.Names.foldl (fun c n => cacheIns c n ti) cache)

/-- The function `Open` (terminfo.go lines 210–245) over an explicit file system
`fs` (path to readable contents) and cache state.  Go's
`name[0:1]` / `name[0]` on an empty name is an out-of-range panic,
modelled as the `panicked` outcome. -/
def Open (fs : ByteStr → Option (List Nat)) (cache : Cache) (dir name : ByteStr) :
    OpenRes × Cache :=
  if name.length = 0 then (.panicked, cache)
  else
    let p1 := pathJoin3 dir (name.take 1) name
    let p2 := pathJoin3 dir (hexByte (name.headD 0)) name
    match fs p1 with
    | some buf => openDecode buf p1 cache
    | none =>
      match fs p2 with
      | some buf => openDecode buf p2 cache
      | none => (.err .FileNotFound, cache)

/-- The type of the external capability-string formatter
(the package-level `Sprintf`), a collaborator outside the core:
`(rawCapabilityString, parameters) → expandedString`. -/
abbrev Formatter := ByteStr → List Int → ByteStr

/-- A Go expression that can panic at runtime, here from indexing. -/
inductive GoVal (α : Type) where
  | ok : α → GoVal α
  | panicked : GoVal α
deriving Repr, DecidableEq

/-- Modelled from the spec: `CursorAddress`, the canonical index of the
cursor-addressing string capability (`cup`), position 10 of the
canonical string capability ordering. -/
def CursorAddress : Int := 10

/-- The method `Terminfo.Sprintf` (terminfo.go lines 247–249): hands
`ti.Strings[int(s)]` to the external formatter `f`; the index is
unguarded, so Go's runtime bounds check panics outside
`0 ≤ int(s) < len(ti.Strings)`. -/
def Terminfo.Sprintf (f : Formatter) (ti : Terminfo) (s : Int) (p : List Int) :
    GoVal ByteStr :=
  if 0 ≤ s ∧ s.toNat < ti.Strings.length then .ok (f (ti.Strings.getD s.toNat []) p)
  else .panicked

/-- The method `Terminfo.CapSprintf` (terminfo.go lines 251–253): returns the
empty string unconditionally. -/
def Terminfo.CapSprintf (ti : Terminfo) (name : ByteStr) (p : List Int) : ByteStr :=
  let _ := ti
  let _ := name
  let _ := p
  []

/-- The method `Terminfo.Goto` (terminfo.go lines 257–259): `Sprintf` at the
`CursorAddress` capability with the row and column as parameters. -/
def Terminfo.Goto (f : Formatter) (ti : Terminfo) (row col : Int) : GoVal ByteStr :=
  Terminfo.Sprintf f ti CursorAddress [row, col]

theorem readNumsAux_len {n i : Nat} {d : Dec} {vs : List Int} {ms : List Nat}
    {d1 : Dec} (h : readNumsAux n i d = .ok (vs, ms, d1)) : vs.length = n := by
  induction n generalizing i d vs ms d1 with
  | zero =>
    simp only [readNumsAux] at h
    cases h
    rfl
  | succ k ih =>
    simp only [readNumsAux] at h
    split at h
    · cases h
    · split at h
      · cases h
      · rename_i heq2
        cases h
        simpa using ih heq2

theorem resolveAll_len {table : List Nat} {offs : List Int} {i : Nat}
    {ss : List ByteStr} {ms : List Nat}
    (h : resolveAll table offs i = .ok (ss, ms)) : ss.length = offs.length := by
  induction offs generalizing i ss ms with
  | nil =>
    simp only [resolveAll] at h
    cases h
    rfl
  | cons off rest ih =>
    simp only [resolveAll] at h
    split at h
    · split at h
      · cases h
      · rename_i heq2
        cases h
        simpa using ih heq2
    · split at h
      · cases h
      · split at h
        · cases h
        · rename_i heq2
          cases h
          simpa using ih heq2

theorem readStrings_len {n ts cap : Int} {d : Dec} {ss : List ByteStr}
    {ms : List Nat} {d1 : Dec}
    (h : readStrings n ts cap d = .ok (ss, ms, d1)) : ss.length = n.toNat := by
  simp only [readStrings, readNums] at h
  split at h
  · cases h
  · rename_i heq1
    split at h
    · cases h
    · split at h
      · cases h
      · rename_i heq3
        cases h
        rw [resolveAll_len heq3, readNumsAux_len heq1]

/-- Decidable equality of `Except` results, for evaluating the decoder
on concrete buffers. -/
instance {α β : Type} [DecidableEq α] [DecidableEq β] : DecidableEq (Except α β)
  | .error a, .error b =>
    if h : a = b then .isTrue (h ▸ rfl) else .isFalse (fun hc => h (by injection hc))
  | .error _, .ok _ => .isFalse (fun hc => by cases hc)
  | .ok _, .error _ => .isFalse (fun hc => by cases hc)
  | .ok x, .ok y =>
    if h : x = y then .isTrue (h ▸ rfl) else .isFalse (fun hc => h (by injection hc))

theorem readInt16_err {d : Dec} {e : Err} (h : readInt16 d = .error e) :
    e ≠ .InvalidFileSize := by
  simp only [readInt16] at h
  split at h
  · injection h with h
    subst h
    decide
  · cases h

theorem readBytes_err {n : Int} {d : Dec} {e : Err} (h : readBytes n d = .error e) :
    e ≠ .InvalidFileSize := by
  simp only [readBytes] at h
  split at h
  · injection h with h
    subst h
    decide
  · cases h

theorem readNumsAux_err {n i : Nat} {d : Dec} {e : Err}
    (h : readNumsAux n i d = .error e) : e ≠ .InvalidFileSize := by
  induction n generalizing i d e with
  | zero => simp [readNumsAux] at h
  | succ k ih =>
    simp only [readNumsAux] at h
    split at h
    · rename_i heq
      injection h with h
      subst h
      exact readInt16_err heq
    · split at h
      · rename_i heq
        injection h with h
        subst h
        exact ih heq
      · cases h

theorem readNums_err {n cap : Int} {d : Dec} {e : Err}
    (h : readNums n cap d = .error e) : e ≠ .InvalidFileSize := by
  simp only [readNums] at h
  exact readNumsAux_err h

theorem readBools_err {n cap : Int} {d : Dec} {e : Err}
    (h : readBools n cap d = .error e) : e ≠ .InvalidFileSize := by
  simp only [readBools] at h
  split at h
  · rename_i heq
    injection h with h
    subst h
    exact readBytes_err heq
  · cases h

theorem resolveAll_err {table : List Nat} {offs : List Int} {i : Nat} {e : Err}
    (h : resolveAll table offs i = .error e) : e ≠ .InvalidFileSize := by
  induction offs generalizing i e with
  | nil => simp [resolveAll] at h
  | cons off rest ih =>
    simp only [resolveAll] at h
    split at h
    · split at h
      · rename_i heq
        injection h with h
        subst h
        exact ih heq
      · cases h
    · split at h
      · injection h with h
        subst h
        decide
      · split at h
        · rename_i heq
          injection h with h
          subst h
          exact ih heq
        · cases h

theorem readStrings_err {n ts cap : Int} {d : Dec} {e : Err}
    (h : readStrings n ts cap d = .error e) : e ≠ .InvalidFileSize := by
  simp only [readStrings] at h
  split at h
  · rename_i heq
    injection h with h
    subst h
    exact readNums_err heq
  · split at h
    · rename_i heq
      injection h with h
      subst h
      exact readBytes_err heq
    · split at h
      · rename_i heq
        injection h with h
        subst h
        exact resolveAll_err heq
      · cases h

theorem decodeLegacy_err {buf : List Nat} {e : Err}
    (h : decodeLegacy buf = .error e) : e ≠ .InvalidFileSize := by
  simp only [decodeLegacy] at h
  split at h
  · rename_i heq
    injection h with h
    subst h
    exact readInt16_err heq
  · split at h
    · injection h with h
      subst h
      decide
    · split at h
      · rename_i heq
        injection h with h
        subst h
        exact readNums_err heq
      · split at h
        · injection h with h
          subst h
          decide
        · split at h
          · injection h with h
            subst h
            decide
          · split at h
            · rename_i heq
              injection h with h
              subst h
              exact readBytes_err heq
            · split at h
              · rename_i heq
                injection h with h
                subst h
                exact readBools_err heq
              · split at h
                · rename_i heq
                  injection h with h
                  subst h
                  exact readNums_err heq
                · split at h
                  · rename_i heq
                    injection h with h
                    subst h
                    exact readStrings_err heq
                  · cases h

theorem decodeExt_err {ti : Terminfo} {d : Dec} {e : Err}
    (h : decodeExt ti d = .error e) : e ≠ .InvalidFileSize := by
  simp only [decodeExt] at h
  split at h
  · rename_i heq
    injection h with h
    subst h
    exact readNums_err heq
  · split at h
    · injection h with h
      subst h
      decide
    · split at h
      · injection h with h
        subst h
        decide
      · split at h
        · rename_i heq
          injection h with h
          subst h
          exact readBools_err heq
        · split at h
          · rename_i heq
            injection h with h
            subst h
            exact readNums_err heq
          · split at h
            · rename_i heq
              injection h with h
              subst h
              exact readStrings_err heq
            · cases h

theorem readBools_len {n cap : Int} {d : Dec} {bs : List Bool} {ms : List Nat}
    {d1 : Dec} (h : readBools n cap d = .ok (bs, ms, d1)) :
    (d.buf.length : Int) - (d.pos : Int) < n ∨ bs.length = n.toNat := by
  simp only [readBools, readBytes] at h
  by_cases hlt : (d.buf.length : Int) - (d.pos : Int) < n
  · exact Or.inl hlt
  · rw [if_neg hlt] at h
    cases h
    refine Or.inr ?_
    simp only [List.length_map, List.length_take, List.length_drop]
    omega

/-- C4: `Decode` fails with `InvalidFileSize` exactly when the buffer
holds at least 4096 bytes.  The rejection is unconditional on buffer
content (the size check precedes the magic and header checks), and no
other stage of decoding ever produces `InvalidFileSize`, so a buffer
under 4096 bytes — in particular one of 4095 bytes — passes the size
check; a 4096-byte buffer is rejected. -/
theorem decode_invalid_size_iff (buf : List Nat) :
    Decode buf = .error Err.InvalidFileSize ↔ 4096 ≤ buf.length := by
  constructor
  · intro h
    by_contra hlen
    simp only [Decode] at h
    rw [if_neg (by omega : ¬ buf.length ≥ 4096)] at h
    split at h
    · rename_i heq
      injection h with h
      exact decodeLegacy_err heq h
    · split at h
      · cases h
      · exact absurd rfl (decodeExt_err h)
  · intro h
    simp only [Decode]
    rw [if_pos (by omega : buf.length ≥ 4096)]

/-- C10: `Terminfo.CapSprintf` returns the empty string for every
receiver, name and parameter list; it consults nothing. -/
theorem capSprintf_always_empty (ti : Terminfo) (name : ByteStr) (p : List Int) :
    Terminfo.CapSprintf ti name p = [] := rfl

/-- C9: `Terminfo.Sprintf` indexes `ti.Strings[int(s)]` with no guard
of its own, so the access is well-defined (does not hit Go's runtime
bounds panic) exactly when `0 ≤ int(s) < len(ti.Strings)`; `Goto` is
`Sprintf` at the `CursorAddress` index with the row and column as
parameters, so it inherits the same precondition. -/
theorem sprintf_unguarded_index (f : Formatter) (ti : Terminfo) (s : Int)
    (p : List Int) (row col : Int) :
    (Terminfo.Sprintf f ti s p ≠ GoVal.panicked ↔
      0 ≤ s ∧ s.toNat < ti.Strings.length) ∧
    Terminfo.Goto f ti row col = Terminfo.Sprintf f ti CursorAddress [row, col] := by
  refine ⟨?_, rfl⟩
  simp only [Terminfo.Sprintf]
  by_cases h : 0 ≤ s ∧ s.toNat < ti.Strings.length
  · simp [h]
  · simp [h]

/-- C6: `Open` with an empty terminal name panics (Go's `name[0:1]` on
an empty string is an out-of-range slice) for every file system, cache
and directory, leaving the cache unchanged; the declared
`ErrEmptyTermName` is never returned. -/
theorem open_empty_name_panics (fs : ByteStr → Option (List Nat)) (cache : Cache)
    (dir : ByteStr) : Open fs cache dir [] = (OpenRes.panicked, cache) := rfl

theorem decodeLegacy_ext_empty {buf : List Nat} {ti : Terminfo} {d : Dec}
    (h : decodeLegacy buf = .ok (ti, d)) :
    ti.ExtBools = [] ∧ ti.ExtNums = [] ∧ ti.ExtStrings = [] ∧
    ti.ExtBoolsNames = [] ∧ ti.ExtNumsNames = [] ∧ ti.ExtStringsNames = [] := by
  simp only [decodeLegacy] at h
  split at h
  · cases h
  · split at h
    · cases h
    · split at h
      · cases h
      · split at h
        · cases h
        · split at h
          · cases h
          · split at h
            · cases h
            · split at h
              · cases h
              · split at h
                · cases h
                · split at h
                  · cases h
                  · cases h
                    exact ⟨rfl, rfl, rfl, rfl, rfl, rfl⟩

/-- C3: a buffer whose legacy region (magic, header, names, booleans,
numbers, strings) consumes it entirely decodes successfully — the
early exit at terminfo.go lines 158–161 — with every extended field
left empty. -/
theorem decode_legacy_only {buf : List Nat} {ti : Terminfo} {d : Dec}
    (h : decodeLegacy buf = .ok (ti, d)) (hpos : d.buf.length ≤ d.pos)
    (hsize : buf.length < 4096) :
    Decode buf = .ok ti ∧ ti.ExtBools = [] ∧ ti.ExtNums = [] ∧
    ti.ExtStrings = [] ∧ ti.ExtBoolsNames = [] ∧ ti.ExtNumsNames = [] ∧
    ti.ExtStringsNames = [] := by
  obtain ⟨h1, h2, h3, h4, h5, h6⟩ := decodeLegacy_ext_empty h
  refine ⟨?_, h1, h2, h3, h4, h5, h6⟩
  simp only [Decode]
  rw [if_neg (by omega : ¬ buf.length ≥ 4096), h]
  exact if_pos hpos

/-- A 12-byte buffer holding only the magic and an all-zero legacy
header: the legacy region consumes it exactly. -/
def legacyOnlyBuf : List Nat := [26, 1, 0, 0, 0, 0, 0, 0, 0, 0, 0, 0]

/-- The table `legacyOnlyBuf` decodes to: one empty name, no
capabilities. -/
def legacyOnlyTi : Terminfo := { Names := [[]] }

/-- C3 witness: `legacyOnlyBuf` is consumed exactly by the legacy
region and decodes successfully with all extended fields empty. -/
theorem decode_legacy_only_witness :
    Decode legacyOnlyBuf = .ok legacyOnlyTi ∧ legacyOnlyTi.ExtBools = [] ∧
    legacyOnlyTi.ExtNums = [] ∧ legacyOnlyTi.ExtStrings = [] ∧
    legacyOnlyTi.ExtBoolsNames = [] ∧ legacyOnlyTi.ExtNumsNames = [] ∧
    legacyOnlyTi.ExtStringsNames = [] :=
  decode_legacy_only (d := { buf := legacyOnlyBuf, pos := 12 }) rfl
    (by decide) (by decide)

/-- C2 (amended): once the 10-byte extended header has been read and
passes the offset-consistency check, `Decode`'s extended stage fails
with `InvalidExtendedHeader` whenever the bytes remaining after the
header differ from the extended region's computed total length in
either direction — a shortfall and a surplus are both rejected, mere
sufficiency is not accepted.  (When fewer than the 10 header bytes
remain after the legacy region the failure is `UnexpectedFileEnd`
instead; see the counterexample.) -/
theorem decodeExt_exact_length {ti : Terminfo} {d : Dec} {eh : List Int}
    {ms : List Nat} {d1 : Dec} (h : readNums 5 5 d = .ok (eh, ms, d1))
    (hoff : hasInvalidExtOffset eh = false)
    (hne : (d1.buf.length : Int) - (d1.pos : Int) ≠ extCapLength eh) :
    decodeExt ti d = .error Err.InvalidExtendedHeader := by
  simp only [decodeExt]
  split
  · rename_i e heq
    exact Except.noConfusion (h.symm.trans heq)
  · rename_i eh2 ms2 d12 heq
    have h3 := h.symm.trans heq
    simp only [Except.ok.injEq, Prod.mk.injEq] at h3
    obtain ⟨he, _, hd⟩ := h3
    subst he
    subst hd
    rw [if_neg (by simp [hoff] : ¬ hasInvalidExtOffset eh = true)]
    exact if_pos hne

/-- An eleven-byte tail after a legacy region: an all-zero extended
header (valid, total extended length 0) followed by one surplus byte. -/
def extSurplusBuf : List Nat := [0, 0, 0, 0, 0, 0, 0, 0, 0, 0, 0]

/-- C2 witness: on `extSurplusBuf` the extended header reads as all
zeros, one byte remains where the computed extended length is 0, and
the extended stage fails with `InvalidExtendedHeader`. -/
theorem decodeExt_exact_length_witness :
    decodeExt {} { buf := extSurplusBuf, pos := 0 } =
      .error Err.InvalidExtendedHeader :=
  @decodeExt_exact_length {} { buf := extSurplusBuf, pos := 0 } [0, 0, 0, 0, 0]
    [] { buf := extSurplusBuf, pos := 10 } rfl rfl (by decide)

/-- A 13-byte buffer: the 12-byte legacy-only file followed by one
extra byte, so bytes remain after the legacy region but fewer than an
extended header. -/
def extraByteBuf : List Nat := [26, 1, 0, 0, 0, 0, 0, 0, 0, 0, 0, 0, 0]

/-- C2 counterexample: on `extraByteBuf` one byte remains after the
legacy region (the cursor stops at position 12 of 13), the remaining
length does not match any extended region, yet `Decode` fails with
`UnexpectedFileEnd` — not `InvalidExtendedHeader` as the claim states
for every buffer with bytes remaining. -/
theorem decode_extra_byte_not_ext_header :
    decodeLegacy extraByteBuf =
      .ok ({ Names := [[]] }, { buf := extraByteBuf, pos := 12 }) ∧
    12 < extraByteBuf.length ∧
    Decode extraByteBuf = .error Err.UnexpectedFileEnd ∧
    Decode extraByteBuf ≠ .error Err.InvalidExtendedHeader := by
  refine ⟨rfl, by decide, rfl, ?_⟩
  intro hc
  have h2 : Err.UnexpectedFileEnd = Err.InvalidExtendedHeader := by
    injection (rfl : Decode extraByteBuf = .error Err.UnexpectedFileEnd).symm.trans hc
  cases h2

theorem makemapIns_len_le (m : List (ByteStr × Nat)) (k : ByteStr) (v : Nat) :
    (makemapIns m k v).length ≤ m.length + 1 := by
  unfold makemapIns
  split
  · simp
  · simp

theorem makemapGo_len_le (s : List ByteStr) :
    ∀ (i : Nat) (m : List (ByteStr × Nat)),
    (makemapGo s i m).length ≤ m.length + s.length := by
  induction s with
  | nil => intro i m; simp [makemapGo]
  | cons x xs ih =>
    intro i m
    simp only [makemapGo, List.length_cons]
    have h1 := ih (i + 1) (makemapIns m x i)
    have h2 := makemapIns_len_le m x i
    omega

theorem makemap_len_le (s : List ByteStr) : (makemap s).length ≤ s.length := by
  simpa using makemapGo_len_le s 0 []

theorem makemapIns_vals {m : List (ByteStr × Nat)} {k : ByteStr} {v B : Nat}
    (hm : ∀ p ∈ m, p.2 < B) (hv : v < B) :
    ∀ p ∈ makemapIns m k v, p.2 < B := by
  unfold makemapIns
  split
  · intro p hp
    obtain ⟨q, hq, rfl⟩ := List.mem_map.1 hp
    by_cases hqk : (q.1 == k) = true
    · simpa [hqk] using hv
    · simpa [hqk] using hm q hq
  · intro p hp
    rcases List.mem_append.1 hp with hin | hone
    · exact hm p hin
    · simp only [List.mem_singleton] at hone
      subst hone
      exact hv

theorem makemapGo_vals (s : List ByteStr) :
    ∀ (i : Nat) (m : List (ByteStr × Nat)) (B : Nat),
    (∀ p ∈ m, p.2 < B) → i + s.length ≤ B →
    ∀ p ∈ makemapGo s i m, p.2 < B := by
  induction s with
  | nil =>
    intro i m B hm _
    simp only [makemapGo]
    exact hm
  | cons x xs ih =>
    intro i m B hm hle
    simp only [List.length_cons] at hle
    simp only [makemapGo]
    exact ih (i + 1) (makemapIns m x i) B (makemapIns_vals hm (by omega)) (by omega)

theorem makemap_vals (s : List ByteStr) : ∀ p ∈ makemap s, p.2 < s.length :=
  makemapGo_vals s 0 [] s.length (by simp) (by simp)

theorem makemapIns_not_mem (m : List (ByteStr × Nat)) (k : ByteStr) (v : Nat)
    (hk : m.any (fun p => p.1 == k) = false) :
    makemapIns m k v = m ++ [(k, v)] := by
  unfold makemapIns
  rw [if_neg (by simp [hk])]

theorem makemapGo_len_nodup (s : List ByteStr) :
    ∀ (i : Nat) (m : List (ByteStr × Nat)), s.Nodup →
    (∀ x ∈ s, m.any (fun p => p.1 == x) = false) →
    (makemapGo s i m).length = m.length + s.length := by
  induction s with
  | nil => intro i m _ _; simp [makemapGo]
  | cons x xs ih =>
    intro i m hnd hmem
    simp only [makemapGo]
    rw [makemapIns_not_mem m x i (hmem x (by simp))]
    rw [ih (i + 1) (m ++ [(x, i)]) (List.Nodup.of_cons hnd) ?_]
    · simp only [List.length_append, List.length_cons, List.length_nil]
      omega
    · intro y hy
      have hx : x ≠ y := fun hxy => (List.nodup_cons.1 hnd).1 (hxy ▸ hy)
      simp only [List.any_append, Bool.or_eq_false_iff]
      refine ⟨hmem y (List.mem_cons_of_mem _ hy), ?_⟩
      simp [hx]

theorem makemap_len_nodup (s : List ByteStr) (h : s.Nodup) :
    (makemap s).length = s.length := by
  simpa using makemapGo_len_nodup s 0 [] h (by simp)

theorem extOffset_valid {eh : List Int} (h : hasInvalidExtOffset eh = false) :
    0 ≤ eh.getD fieldExtBoolCount 0 ∧ 0 ≤ eh.getD fieldExtNumCount 0 ∧
    0 ≤ eh.getD fieldExtStringCount 0 ∧ 0 ≤ eh.getD fieldExtOffsetCount 0 ∧
    0 ≤ eh.getD fieldExtTableSize 0 ∧
    eh.getD fieldExtBoolCount 0 + eh.getD fieldExtNumCount 0 +
      2 * eh.getD fieldExtStringCount 0 = eh.getD fieldExtOffsetCount 0 := by
  simp only [hasInvalidExtOffset, Bool.or_eq_false_iff, decide_eq_false_iff_not] at h
  obtain ⟨⟨⟨⟨⟨h1, h2⟩, h3⟩, h4⟩, h5⟩, h6⟩ := h
  exact ⟨by omega, by omega, by omega, by omega, by omega, by omega⟩

/-- C1 (amended): a successfully decoded extended region reads
`extBoolCount + extNumCount + 2*extStringCount` string-table offsets
and partitions the resolved strings positionally — the first
`extStringCount` entries become `ExtStrings`, the next `extBoolCount`
the keys of `ExtBoolsNames`, the next `extNumCount` the keys of
`ExtNumsNames`, the final `extStringCount` the keys of
`ExtStringsNames` — with `len(ExtStrings) = extStringCount`, every
name mapping to an index within bounds of its array, and each name
map's size equal to its count whenever the names of its slice are
pairwise distinct (in general only `≤` holds: a repeated name
collapses to one key, which keeps the last position). -/
theorem decodeExt_partition {ti0 : Terminfo} {d : Dec} {ti : Terminfo}
    {eh : List Int} {ms0 : List Nat} {d1 : Dec} {bl : List Bool} {mb : List Nat}
    {d2 : Dec} {nl : List Int} {mn : List Nat} {d3 : Dec} {sl : List ByteStr}
    {msl : List Nat} {d4 : Dec}
    (hdec : decodeExt ti0 d = .ok ti)
    (hh : readNums 5 5 d = .ok (eh, ms0, d1))
    (hb : readBools (eh.getD fieldExtBoolCount 0) (eh.getD fieldExtBoolCount 0) d1 =
      .ok (bl, mb, d2))
    (hn : readNums (eh.getD fieldExtNumCount 0) (eh.getD fieldExtNumCount 0) d2 =
      .ok (nl, mn, d3))
    (hs : readStrings
      (eh.getD fieldExtBoolCount 0 + eh.getD fieldExtNumCount 0 +
        2 * eh.getD fieldExtStringCount 0)
      (eh.getD fieldExtTableSize 0)
      (eh.getD fieldExtBoolCount 0 + eh.getD fieldExtNumCount 0 +
        2 * eh.getD fieldExtStringCount 0) d3 = .ok (sl, msl, d4)) :
    sl.length = (eh.getD fieldExtBoolCount 0).toNat +
      (eh.getD fieldExtNumCount 0).toNat +
      2 * (eh.getD fieldExtStringCount 0).toNat ∧
    ti.ExtBools = bl ∧
    ti.ExtNums = nl ∧
    ti.ExtStrings = sl.take (eh.getD fieldExtStringCount 0).toNat ∧
    ti.ExtBoolsNames = makemap
      ((sl.drop (eh.getD fieldExtStringCount 0).toNat).take
        (eh.getD fieldExtBoolCount 0).toNat) ∧
    ti.ExtNumsNames = makemap
      (((sl.drop (eh.getD fieldExtStringCount 0).toNat).drop
        (eh.getD fieldExtBoolCount 0).toNat).take
        (eh.getD fieldExtNumCount 0).toNat) ∧
    ti.ExtStringsNames = makemap
      ((((sl.drop (eh.getD fieldExtStringCount 0).toNat).drop
        (eh.getD fieldExtBoolCount 0).toNat).drop
        (eh.getD fieldExtNumCount 0).toNat).take
        (eh.getD fieldExtStringCount 0).toNat) ∧
    ti.ExtStrings.length = (eh.getD fieldExtStringCount 0).toNat ∧
    ti.ExtBoolsNames.length ≤ (eh.getD fieldExtBoolCount 0).toNat ∧
    ti.ExtNumsNames.length ≤ (eh.getD fieldExtNumCount 0).toNat ∧
    ti.ExtStringsNames.length ≤ (eh.getD fieldExtStringCount 0).toNat ∧
    (∀ p ∈ ti.ExtBoolsNames, p.2 < (eh.getD fieldExtBoolCount 0).toNat) ∧
    (∀ p ∈ ti.ExtNumsNames, p.2 < (eh.getD fieldExtNumCount 0).toNat) ∧
    (∀ p ∈ ti.ExtStringsNames, p.2 < (eh.getD fieldExtStringCount 0).toNat) ∧
    (((sl.drop (eh.getD fieldExtStringCount 0).toNat).take
        (eh.getD fieldExtBoolCount 0).toNat).Nodup →
      ti.ExtBoolsNames.length = (eh.getD fieldExtBoolCount 0).toNat) ∧
    ((((sl.drop (eh.getD fieldExtStringCount 0).toNat).drop
        (eh.getD fieldExtBoolCount 0).toNat).take
        (eh.getD fieldExtNumCount 0).toNat).Nodup →
      ti.ExtNumsNames.length = (eh.getD fieldExtNumCount 0).toNat) ∧
    (((((sl.drop (eh.getD fieldExtStringCount 0).toNat).drop
        (eh.getD fieldExtBoolCount 0).toNat).drop
        (eh.getD fieldExtNumCount 0).toNat).take
        (eh.getD fieldExtStringCount 0).toNat).Nodup →
      ti.ExtStringsNames.length = (eh.getD fieldExtStringCount 0).toNat) := by
  simp only [decodeExt] at hdec
  split at hdec
  · rename_i e heq
    exact Except.noConfusion (hh.symm.trans heq)
  · rename_i eh2 ms2 d12 heq
    have h3 := hh.symm.trans heq
    simp only [Except.ok.injEq, Prod.mk.injEq] at h3
    obtain ⟨he, hm2, hd2⟩ := h3
    subst he
    subst hd2
    split at hdec
    · exact Except.noConfusion hdec
    · split at hdec
      · exact Except.noConfusion hdec
      · rename_i hoff hlen
        split at hdec
        · rename_i e heq2
          exact Except.noConfusion (hb.symm.trans heq2)
        · rename_i bl2 mb2 d22 heq2
          have h4 := hb.symm.trans heq2
          simp only [Except.ok.injEq, Prod.mk.injEq] at h4
          obtain ⟨hbl, hmb2, hd22⟩ := h4
          subst hbl
          subst hd22
          split at hdec
          · rename_i e heq3
            exact Except.noConfusion (hn.symm.trans heq3)
          · rename_i nl2 mn2 d32 heq3
            have h5 := hn.symm.trans heq3
            simp only [Except.ok.injEq, Prod.mk.injEq] at h5
            obtain ⟨hnl, hmn2, hd32⟩ := h5
            subst hnl
            subst hd32
            split at hdec
            · rename_i e heq4
              exact Except.noConfusion (hs.symm.trans heq4)
            · rename_i sl2 msl2 d42 heq4
              have h6 := hs.symm.trans heq4
              simp only [Except.ok.injEq, Prod.mk.injEq] at h6
              obtain ⟨hsl, hmsl2, hd42⟩ := h6
              subst hsl
              injection hdec with hdec
              subst hdec
              have hofff : hasInvalidExtOffset eh = false := by
                revert hoff
                cases hasInvalidExtOffset eh <;> simp
              obtain ⟨hb0, hn0, hs0, ho0, ht0, hsum⟩ := extOffset_valid hofff
              have hlen1 := readStrings_len hs
              have hlen2 : sl.length = (eh.getD fieldExtBoolCount 0).toNat +
                  (eh.getD fieldExtNumCount 0).toNat +
                  2 * (eh.getD fieldExtStringCount 0).toNat := by omega
              dsimp only
              refine ⟨hlen2, rfl, rfl, rfl, rfl, rfl, rfl, ?_, ?_, ?_, ?_,
                ?_, ?_, ?_, ?_, ?_, ?_⟩
              · rw [List.length_take]
                omega
              · refine le_trans (makemap_len_le _) ?_
                rw [List.length_take]
                exact min_le_left _ _
              · refine le_trans (makemap_len_le _) ?_
                rw [List.length_take]
                exact min_le_left _ _
              · refine le_trans (makemap_len_le _) ?_
                rw [List.length_take]
                exact min_le_left _ _
              · intro p hp
                refine lt_of_lt_of_le (makemap_vals _ p hp) ?_
                rw [List.length_take]
                exact min_le_left _ _
              · intro p hp
                refine lt_of_lt_of_le (makemap_vals _ p hp) ?_
                rw [List.length_take]
                exact min_le_left _ _
              · intro p hp
                refine lt_of_lt_of_le (makemap_vals _ p hp) ?_
                rw [List.length_take]
                exact min_le_left _ _
              · intro hnd
                rw [makemap_len_nodup _ hnd, List.length_take]
                simp only [List.length_drop]
                omega
              · intro hnd
                rw [makemap_len_nodup _ hnd, List.length_take]
                simp only [List.length_drop]
                omega
              · intro hnd
                rw [makemap_len_nodup _ hnd, List.length_take]
                simp only [List.length_drop]
                omega

/-- A 29-byte extended region on its own: header `[1, 1, 1, 4, 8]`
(one extended bool, one num, one string, 4 combined offsets, 8 table
bytes), a bool byte, a num, offsets 0/2/4/6 and the table
`"v\0B\0N\0S\0"`. -/
def extOnlyBuf : List Nat :=
  [1, 0, 1, 0, 1, 0, 4, 0, 8, 0,
   0, 5, 0, 0, 0, 2, 0, 4, 0, 6, 0,
   118, 0, 66, 0, 78, 0, 83, 0]

/-- The result of decoding `extOnlyBuf`'s extended region over an
empty table: value `"v"`, bool name `"B"`, num name `"N"`, string name
`"S"`. -/
def extOnlyTi : Terminfo :=
  { ExtBools := [false], ExtNums := [5], ExtStrings := [[118]],
    ExtBoolsNames := [([66], 0)], ExtNumsNames := [([78], 0)],
    ExtStringsNames := [([83], 0)] }

/-- C1 witness: the partition property instantiated on `extOnlyBuf`,
whose extended region has one bool, one num and one string. -/
theorem decodeExt_partition_witness :
    ([[118], [66], [78], [83]] : List ByteStr).length = 1 + 1 + 2 * 1 ∧
    extOnlyTi.ExtBools = [false] ∧
    extOnlyTi.ExtNums = [5] ∧
    extOnlyTi.ExtStrings = ([[118], [66], [78], [83]] : List ByteStr).take 1 ∧
    extOnlyTi.ExtBoolsNames =
      makemap ((([[118], [66], [78], [83]] : List ByteStr).drop 1).take 1) ∧
    extOnlyTi.ExtNumsNames =
      makemap (((([[118], [66], [78], [83]] : List ByteStr).drop 1).drop 1).take 1) ∧
    extOnlyTi.ExtStringsNames =
      makemap ((((([[118], [66], [78], [83]] : List ByteStr).drop 1).drop 1).drop 1).take 1) ∧
    extOnlyTi.ExtStrings.length = 1 ∧
    extOnlyTi.ExtBoolsNames.length ≤ 1 ∧
    extOnlyTi.ExtNumsNames.length ≤ 1 ∧
    extOnlyTi.ExtStringsNames.length ≤ 1 ∧
    (∀ p ∈ extOnlyTi.ExtBoolsNames, p.2 < 1) ∧
    (∀ p ∈ extOnlyTi.ExtNumsNames, p.2 < 1) ∧
    (∀ p ∈ extOnlyTi.ExtStringsNames, p.2 < 1) ∧
    (((([[118], [66], [78], [83]] : List ByteStr).drop 1).take 1).Nodup →
      extOnlyTi.ExtBoolsNames.length = 1) ∧
    ((((([[118], [66], [78], [83]] : List ByteStr).drop 1).drop 1).take 1).Nodup →
      extOnlyTi.ExtNumsNames.length = 1) ∧
    (((((([[118], [66], [78], [83]] : List ByteStr).drop 1).drop 1).drop 1).take 1).Nodup →
      extOnlyTi.ExtStringsNames.length = 1) :=
  @decodeExt_partition {} { buf := extOnlyBuf, pos := 0 } extOnlyTi
    [1, 1, 1, 4, 8] [] { buf := extOnlyBuf, pos := 10 }
    [false] [] { buf := extOnlyBuf, pos := 11 }
    [5] [] { buf := extOnlyBuf, pos := 13 }
    [[118], [66], [78], [83]] [] { buf := extOnlyBuf, pos := 29 }
    rfl rfl rfl rfl rfl

/-- A 30-byte file whose extended region declares two extended
booleans whose two name offsets both resolve to the same name `"a"`. -/
def dupNamesBuf : List Nat :=
  [26, 1, 0, 0, 0, 0, 0, 0, 0, 0, 0, 0,
   2, 0, 0, 0, 0, 0, 2, 0, 2, 0,
   0, 0,
   0, 0, 0, 0,
   97, 0]

/-- The table `dupNamesBuf` decodes to: two extended booleans but a
single-entry name map, keeping the last position of the repeated name. -/
def dupNamesTi : Terminfo :=
  { Names := [[]], ExtBools := [false, false], ExtBoolsNames := [([97], 1)] }

/-- C1 counterexample: `dupNamesBuf` decodes successfully with
`extBoolCount = 2` (witnessed by `ExtBools` holding two entries, one
per declared extended boolean), yet `ExtBoolsNames` has a single key —
the two extended booleans share the name `"a"`, so the claimed
`len(ExtBoolsNames) == extBoolCount` fails. -/
theorem decode_dup_names_counterexample :
    Decode dupNamesBuf = .ok dupNamesTi ∧
    dupNamesTi.ExtBools.length = 2 ∧
    dupNamesTi.ExtBoolsNames.length = 1 := by
  refine ⟨by decide, by decide, by decide⟩

theorem readNumsAux_sentinel {n i0 : Nat} {d : Dec} {vs : List Int}
    {ms : List Nat} {d1 : Dec} (h : readNumsAux n i0 d = .ok (vs, ms, d1)) :
    ∀ j ∈ ms, i0 ≤ j ∧ j - i0 < vs.length ∧ vs.getD (j - i0) 0 = -1 := by
  induction n generalizing i0 d vs ms d1 with
  | zero =>
    simp only [readNumsAux] at h
    cases h
    simp
  | succ k ih =>
    simp only [readNumsAux] at h
    split at h
    · cases h
    · rename_i v d1a heq1
      split at h
      · cases h
      · rename_i vs2 ms2 d2a heq2
        cases h
        intro j hj
        by_cases hv : v = -1
        · rw [if_pos hv] at hj
          rcases List.mem_cons.1 hj with rfl | hj2
          · refine ⟨le_refl _, ?_, ?_⟩
            · simp
            · simp [hv]
          · obtain ⟨h1, h2, h3⟩ := ih heq2 j hj2
            refine ⟨by omega, ?_, ?_⟩
            · simp only [List.length_cons]
              omega
            · have he : j - i0 = (j - (i0 + 1)) + 1 := by omega
              rw [he]
              simpa using h3
        · rw [if_neg hv] at hj
          obtain ⟨h1, h2, h3⟩ := ih heq2 j hj
          refine ⟨by omega, ?_, ?_⟩
          · simp only [List.length_cons]
            omega
          · have he : j - i0 = (j - (i0 + 1)) + 1 := by omega
            rw [he]
            simpa using h3

theorem readBools_sentinel {n cap : Int} {d : Dec} {bs : List Bool}
    {mbs : List Nat} {d1 : Dec} (h : readBools n cap d = .ok (bs, mbs, d1)) :
    ∀ i ∈ mbs, i < bs.length ∧ bs.getD i false = false := by
  simp only [readBools] at h
  split at h
  · cases h
  · rename_i bytes d1a heq0
    cases h
    intro i hi
    simp only [List.mem_filter, List.mem_range] at hi
    obtain ⟨hilen, hival⟩ := hi
    have hbyte : bytes.getD i 0 = 255 := by simpa using hival
    have hlt : i < (bytes.map (fun b => b == 1)).length := by
      simpa using hilen
    refine ⟨hlt, ?_⟩
    rw [List.getD_eq_getElem _ _ hlt, List.getElem_map]
    rw [← List.getD_eq_getElem bytes 0 hilen, hbyte]
    rfl

/-- C5 (amended): the extended boolean and numeric regions are read by
the very same sentinel-aware readers as the legacy arrays — a −1
numeric entry and a 0xFF boolean byte land in the reader's missing
index set, a sentinel number is stored as −1 (distinguishable from
zero) and a sentinel boolean as `false` — but `Decode` discards the
extended missing sets (terminfo.go lines 180 and 186 drop them, and
`Terminfo` has no field for them), so a sentinel extended boolean is
not distinguishable from an explicit false in the decoded result. -/
theorem ext_sentinel_rules {n cap : Int} {dn db dn1 db1 : Dec} {vs : List Int}
    {ms : List Nat} {bs : List Bool} {mbs : List Nat}
    (hnum : readNums n cap dn = .ok (vs, ms, dn1))
    (hbool : readBools n cap db = .ok (bs, mbs, db1)) :
    (∀ i ∈ ms, i < vs.length ∧ vs.getD i 0 = -1) ∧
    (∀ i ∈ mbs, i < bs.length ∧ bs.getD i false = false) := by
  constructor
  · intro i hi
    simp only [readNums] at hnum
    obtain ⟨h1, h2, h3⟩ := readNumsAux_sentinel hnum i hi
    simp only [Nat.sub_zero] at h2 h3
    exact ⟨h2, h3⟩
  · exact readBools_sentinel hbool

/-- C5 witness: one sentinel number (bytes `FF FF`) and one sentinel
boolean byte (`FF`): both are flagged at index 0 of the missing sets,
the number decodes to −1 and the boolean to `false`. -/
theorem ext_sentinel_rules_witness :
    (∀ i ∈ [0], i < ([-1] : List Int).length ∧ ([-1] : List Int).getD i 0 = -1) ∧
    (∀ i ∈ [0], i < [false].length ∧ [false].getD i false = false) :=
  @ext_sentinel_rules 1 1 { buf := [255, 255], pos := 0 } { buf := [255], pos := 0 }
    { buf := [255, 255], pos := 2 } { buf := [255], pos := 1 }
    [-1] [0] [false] [0] rfl rfl

/-- A file with one extended boolean encoded as the absence sentinel
byte 0xFF (name `"b"`). -/
def extBoolSentinelBuf : List Nat :=
  [26, 1, 0, 0, 0, 0, 0, 0, 0, 0, 0, 0,
   1, 0, 0, 0, 0, 0, 1, 0, 2, 0,
   255,
   0, 0,
   98, 0]

/-- The same file with the extended boolean encoded as an explicit
false byte 0x00. -/
def extBoolFalseBuf : List Nat :=
  [26, 1, 0, 0, 0, 0, 0, 0, 0, 0, 0, 0,
   1, 0, 0, 0, 0, 0, 1, 0, 2, 0,
   0,
   0, 0,
   98, 0]

/-- Both decode to this table: the sentinel is erased to `false`. -/
def extBoolTi : Terminfo :=
  { Names := [[]], ExtBools := [false], ExtBoolsNames := [([98], 0)] }

/-- A file with one extended number encoded as the absence sentinel −1
(bytes `FF FF`, name `"n"`). -/
def extNumSentinelBuf : List Nat :=
  [26, 1, 0, 0, 0, 0, 0, 0, 0, 0, 0, 0,
   0, 0, 1, 0, 0, 0, 1, 0, 2, 0,
   255, 255,
   0, 0,
   110, 0]

/-- Its decode: the sentinel number is kept as −1 in `ExtNums`. -/
def extNumTi : Terminfo :=
  { Names := [[]], ExtNums := [-1], ExtNumsNames := [([110], 0)] }

/-- C5 counterexample: a sentinel-encoded extended boolean and an
explicitly false one decode to byte-for-byte identical tables — the
absence is not recorded in the decoded result and not distinguishable
from an explicit false; a sentinel extended number is kept as the raw
value −1 with no absence record. -/
theorem ext_sentinel_discarded_counterexample :
    Decode extBoolSentinelBuf = .ok extBoolTi ∧
    Decode extBoolFalseBuf = .ok extBoolTi ∧
    extBoolSentinelBuf ≠ extBoolFalseBuf ∧
    Decode extNumSentinelBuf = .ok extNumTi ∧
    extNumTi.ExtNums = [-1] := by
  refine ⟨by decide, by decide, by decide, by decide, by decide⟩

theorem open_eq (fs : ByteStr → Option (List Nat)) (cache : Cache)
    (dir name : ByteStr) (hname : name.length ≠ 0) :
    Open fs cache dir name =
      match fs (pathJoin3 dir (name.take 1) name) with
      | some b => openDecode b (pathJoin3 dir (name.take 1) name) cache
      | none =>
        match fs (pathJoin3 dir (hexByte (name.headD 0)) name) with
        | some b => openDecode b (pathJoin3 dir (hexByte (name.headD 0)) name) cache
        | none => (.err .FileNotFound, cache) := by
  simp only [Open]
  rw [if_neg hname]

theorem openDecode_file {b : List Nat} {fn : ByteStr} {cache : Cache}
    {ti : Terminfo} {c2 : Cache} (h : openDecode b fn cache = (.ok ti, c2)) :
    ti.File = fn := by
  simp only [openDecode] at h
  split at h
  · simp at h
  · rename_i ti0 heq
    simp only [Prod.mk.injEq, OpenRes.ok.injEq] at h
    obtain ⟨hti, _⟩ := h
    subst hti
    rfl

/-- C7: for a non-empty name, `Open` probes exactly two candidate
paths in order — `dir/<first-char>/<name>` then
`dir/<hex-of-first-byte>/<name>` — decodes the contents of the first
readable one, sets the resulting table's `File` to that path, and
fails with `FileNotFound` when neither is readable. -/
theorem open_candidate_paths (fs : ByteStr → Option (List Nat)) (cache : Cache)
    (dir name : ByteStr) (hname : name ≠ []) :
    (fs (pathJoin3 dir (name.take 1) name) = none →
      fs (pathJoin3 dir (hexByte (name.headD 0)) name) = none →
      Open fs cache dir name = (.err .FileNotFound, cache)) ∧
    (∀ b, fs (pathJoin3 dir (name.take 1) name) = some b →
      Open fs cache dir name =
        openDecode b (pathJoin3 dir (name.take 1) name) cache) ∧
    (∀ b, fs (pathJoin3 dir (name.take 1) name) = none →
      fs (pathJoin3 dir (hexByte (name.headD 0)) name) = some b →
      Open fs cache dir name =
        openDecode b (pathJoin3 dir (hexByte (name.headD 0)) name) cache) ∧
    (∀ b ti c2, fs (pathJoin3 dir (name.take 1) name) = some b →
      Open fs cache dir name = (.ok ti, c2) →
      ti.File = pathJoin3 dir (name.take 1) name) ∧
    (∀ b ti c2, fs (pathJoin3 dir (name.take 1) name) = none →
      fs (pathJoin3 dir (hexByte (name.headD 0)) name) = some b →
      Open fs cache dir name = (.ok ti, c2) →
      ti.File = pathJoin3 dir (hexByte (name.headD 0)) name) := by
  have hlen : name.length ≠ 0 := by
    cases name
    · exact absurd rfl hname
    · simp
  refine ⟨?_, ?_, ?_, ?_, ?_⟩
  · intro h1 h2
    rw [open_eq fs cache dir name hlen, h1, h2]
  · intro b h1
    rw [open_eq fs cache dir name hlen, h1]
  · intro b h1 h2
    rw [open_eq fs cache dir name hlen, h1, h2]
  · intro b ti c2 h1 hopen
    rw [open_eq fs cache dir name hlen, h1] at hopen
    exact openDecode_file hopen
  · intro b ti c2 h1 h2 hopen
    rw [open_eq fs cache dir name hlen, h1, h2] at hopen
    exact openDecode_file hopen

/-- The terminal name `"xterm"`. -/
def xtermName : ByteStr := [120, 116, 101, 114, 109]

/-- A minimal legacy-only file served for the xterm lookup. -/
def xtermBuf : List Nat := [26, 1, 0, 0, 0, 0, 0, 0, 0, 0, 0, 0]

/-- A file system holding exactly `<root>/x/xterm` (root `"r"`),
without the hex-path variant `<root>/78/xterm`. -/
def xtermFs : ByteStr → Option (List Nat) :=
  fun p => if p == pathJoin3 [114] (xtermName.take 1) xtermName
           then some xtermBuf else none

/-- The decoded xterm table: `File` points at the first candidate. -/
def xtermTi : Terminfo :=
  { File := pathJoin3 [114] (xtermName.take 1) xtermName, Names := [[]] }

/-- C7 witness: scenario C — the lookup of `"xterm"` under a root
containing `r/x/xterm` but not `r/78/xterm` resolves via the first
candidate path and populates `File` with it. -/
theorem open_candidate_paths_witness :
    ((xtermFs (pathJoin3 [114] (xtermName.take 1) xtermName) = none →
      xtermFs (pathJoin3 [114] (hexByte (xtermName.headD 0)) xtermName) = none →
      Open xtermFs [] [114] xtermName = (.err .FileNotFound, [])) ∧
    (∀ b, xtermFs (pathJoin3 [114] (xtermName.take 1) xtermName) = some b →
      Open xtermFs [] [114] xtermName =
        openDecode b (pathJoin3 [114] (xtermName.take 1) xtermName) []) ∧
    (∀ b, xtermFs (pathJoin3 [114] (xtermName.take 1) xtermName) = none →
      xtermFs (pathJoin3 [114] (hexByte (xtermName.headD 0)) xtermName) = some b →
      Open xtermFs [] [114] xtermName =
        openDecode b (pathJoin3 [114] (hexByte (xtermName.headD 0)) xtermName) []) ∧
    (∀ b ti c2, xtermFs (pathJoin3 [114] (xtermName.take 1) xtermName) = some b →
      Open xtermFs [] [114] xtermName = (.ok ti, c2) →
      ti.File = pathJoin3 [114] (xtermName.take 1) xtermName) ∧
    (∀ b ti c2, xtermFs (pathJoin3 [114] (xtermName.take 1) xtermName) = none →
      xtermFs (pathJoin3 [114] (hexByte (xtermName.headD 0)) xtermName) = some b →
      Open xtermFs [] [114] xtermName = (.ok ti, c2) →
      ti.File = pathJoin3 [114] (hexByte (xtermName.headD 0)) xtermName)) ∧
    (Open xtermFs [] [114] xtermName).1 = OpenRes.ok xtermTi :=
  ⟨open_candidate_paths xtermFs [] [114] xtermName (by decide), by decide⟩

theorem openDecode_cases (b : List Nat) (fn : ByteStr) (cache : Cache) :
    (∀ e, (openDecode b fn cache).1 = .err e → (openDecode b fn cache).2 = cache) ∧
    ((openDecode b fn cache).1 = .panicked → (openDecode b fn cache).2 = cache) ∧
    (∀ ti, (openDecode b fn cache).1 = .ok ti →
      (openDecode b fn cache).2 = ti.Names.foldl (fun c n => cacheIns c n ti) cache) := by
  simp only [openDecode]
  cases h : Decode b with
  | error e =>
    refine ⟨?_, ?_, ?_⟩
    · intro e2 _
      rfl
    · intro _
      rfl
    · intro ti hti
      exact absurd hti (by simp)
  | ok ti0 =>
    refine ⟨?_, ?_, ?_⟩
    · intro e2 he
      exact absurd he (by simp)
    · intro he
      exact absurd he (by simp)
    · intro ti hti
      simp only [OpenRes.ok.injEq] at hti
      subst hti
      rfl

/-- C8: the cache is updated atomically with respect to failure — when
`Open` returns an error (file not found or any decode error) or
panics, the cache is left exactly as it was and no partial table is
returned (the error constructor carries none); on a fully successful
decode the table is inserted under every one of its alias names, in
order, with a last-write-wins insertion. -/
theorem open_cache_atomic (fs : ByteStr → Option (List Nat)) (cache : Cache)
    (dir name : ByteStr) :
    (∀ e, (Open fs cache dir name).1 = .err e →
      (Open fs cache dir name).2 = cache) ∧
    ((Open fs cache dir name).1 = .panicked →
      (Open fs cache dir name).2 = cache) ∧
    (∀ ti, (Open fs cache dir name).1 = .ok ti →
      (Open fs cache dir name).2 =
        ti.Names.foldl (fun c n => cacheIns c n ti) cache) := by
  by_cases hname : name.length = 0
  · simp only [Open, if_pos hname]
    refine ⟨?_, ?_, ?_⟩
    · intro e he
      exact absurd he (by simp)
    · intro _
      trivial
    · intro ti hti
      exact absurd hti (by simp)
  · rw [open_eq fs cache dir name hname]
    cases h1 : fs (pathJoin3 dir (name.take 1) name) with
    | some b => exact openDecode_cases b _ cache
    | none =>
      cases h2 : fs (pathJoin3 dir (hexByte (name.headD 0)) name) with
      | some b => exact openDecode_cases b _ cache
      | none =>
        refine ⟨?_, ?_, ?_⟩
        · intro e _
          rfl
        · intro _
          rfl
        · intro ti hti
          exact absurd hti (by simp)

end Tinfo
